import Mathlib

/-
Verification of the decision-time detector prescribed by the notebook
mini-projects/04_decision_making.ipynb (perceptual decision making,
Wong & Wang network exercise).

The notebook prescribes, in its "Implementing a decision criterion" cell,
a function get_decision_time(rate_monitor_A, rate_monitor_B,
avg_window_width, rate_threshold) built from the fragment

  smoothed_rates_A = rate_monitor_A.smooth_rate(window="flat",
                                                width=avg_window_width) / b2.Hz
  idx_A = numpy.argmax(smoothed_rates_A > rate_threshold/b2.Hz)
  t_A = idx_A * b2.defaultclock.dt

returning the pair (t_A, t_B).  Rates and times are embedded as rational
numbers (rate samples in Hz, dt and times in ms), a rate series as a
List of rationals sampled at the fixed step dt.
-/

namespace DecisionMaking

attribute [local semireducible] Rat.mul Rat.add Rat.inv Rat.sub

/-- Modelled from the spec: the repository calls Brian2's external
PopulationRateMonitor.smooth_rate, whose body is not part of this
repository; the spec prescribes a causal moving-average (flat window)
smoothing of the given width.  window_at gives the causal window of up
to `width` samples of `rate` ending at index `i` (fewer near the start
of the series, where not all `width` samples exist yet). -/
def window_at (width : Nat) (rate : List ℚ) (i : Nat) : List ℚ :=
  (rate.drop (i + 1 - width)).take (min (i + 1) width)

/-- Modelled from the spec: causal flat-window moving average of the
rate series: sample `i` of the smoothed series is the mean of the raw
samples in the causal window ending at `i`. -/
def smooth_rate (width : Nat) (rate : List ℚ) : List ℚ :=
  (List.range rate.length).map
    (fun i => (window_at width rate i).sum / ((min (i + 1) width : Nat) : ℚ))

/-- Modelled from the spec: index of the first sample on which the
predicate holds, if any; helper for the numpy.argmax idiom of the
notebook's prescribed fragment. -/
def firstTrue (p : ℚ → Bool) : List ℚ → Option Nat
  | [] => none
  | x :: xs => if p x then some 0 else (firstTrue p xs).map (fun n => n + 1)

/-- Modelled from the spec: numpy.argmax over the boolean array
(series > threshold), as in the notebook's prescribed fragment
idx = numpy.argmax(smoothed_rates > rate_threshold): the index of the
first sample strictly above the threshold, and 0 when no sample is
(argmax of an all-False array is 0). -/
def argmax_gt (thr : ℚ) (sr : List ℚ) : Nat :=
  (firstTrue (fun x => decide (thr < x)) sr).getD 0

/-- Modelled from the spec: one side's decision time, per the notebook
fragment t = idx * dt: smooth the raw series, take the argmax of the
thresholded series, scale the index by the sampling step dt. -/
def decision_time_side (rate : List ℚ) (width : Nat) (thr dt : ℚ) : ℚ :=
  ((argmax_gt thr (smooth_rate width rate) : Nat) : ℚ) * dt

/-- Modelled from the spec: get_decision_time as the notebook prescribes
it, returning the pair (decision_time_left, decision_time_right), each
side computed independently by the fragment above. -/
def get_decision_time (rate_A rate_B : List ℚ) (width : Nat) (thr dt : ℚ) :
    ℚ × ℚ :=
  (decision_time_side rate_A width thr dt,
   decision_time_side rate_B width thr dt)

/-- A series crosses when some sample of its smoothed version strictly
exceeds the threshold. -/
def crosses (width : Nat) (thr : ℚ) (s : List ℚ) : Prop :=
  ∃ x ∈ smooth_rate width s, thr < x

instance crosses_decidable (width : Nat) (thr : ℚ) (s : List ℚ) :
    Decidable (crosses width thr s) := by
  unfold crosses
  exact List.decidableBEx _ _

/- Basic facts about the embedding. -/

lemma length_smooth_rate (width : Nat) (rate : List ℚ) :
    (smooth_rate width rate).length = rate.length := by
  simp [smooth_rate]

lemma smooth_rate_getD (width : Nat) (rate : List ℚ) (i : Nat)
    (hi : i < rate.length) :
    (smooth_rate width rate).getD i 0 =
      (window_at width rate i).sum / ((min (i + 1) width : Nat) : ℚ) := by
  rw [List.getD_eq_getElem?_getD, smooth_rate, List.getElem?_map,
    List.getElem?_range hi]
  rfl

lemma length_window_at (width : Nat) (rate : List ℚ) (i : Nat)
    (hi : i < rate.length) :
    (window_at width rate i).length = min (i + 1) width := by
  rw [window_at, List.length_take, List.length_drop]
  omega

lemma firstTrue_eq_none_iff (p : ℚ → Bool) (l : List ℚ) :
    firstTrue p l = none ↔ ∀ x ∈ l, p x = false := by
  induction l with
  | nil => simp [firstTrue]
  | cons x xs ih =>
    by_cases hx : p x <;> simp [firstTrue, hx, ih]

lemma firstTrue_eq_some_iff (p : ℚ → Bool) (l : List ℚ) (k : Nat) :
    firstTrue p l = some k ↔
      k < l.length ∧ p (l.getD k 0) = true ∧
        ∀ j < k, p (l.getD j 0) = false := by
  induction l generalizing k with
  | nil => simp [firstTrue]
  | cons x xs ih =>
    by_cases hx : p x
    · cases k with
      | zero => simp [firstTrue, hx]
      | succ k =>
        simp only [firstTrue, hx, if_pos]
        constructor
        · intro h; exact absurd h (by simp)
        · rintro ⟨-, -, hall⟩
          have := hall 0 (Nat.succ_pos k)
          simp [hx] at this
    · cases k with
      | zero =>
        simp [firstTrue, hx]
      | succ k =>
        simp only [firstTrue, hx, if_neg, Bool.false_eq_true]
        constructor
        · intro h
          obtain ⟨k', hk', hkeq⟩ := Option.map_eq_some'.mp h
          have hk : k' = k := by omega
          subst hk
          obtain ⟨h1, h2, h3⟩ := (ih k').mp hk'
          refine ⟨by simpa using Nat.succ_lt_succ h1, by simpa using h2, ?_⟩
          intro j hj
          cases j with
          | zero => simpa using hx
          | succ j => simpa using h3 j (by omega)
        · rintro ⟨h1, h2, h3⟩
          have hxs : firstTrue p xs = some k := by
            refine (ih k).mpr ⟨by simpa using h1, by simpa using h2, ?_⟩
            intro j hj
            simpa using h3 (j + 1) (by omega)
          simp [hxs]

lemma firstTrue_cons_of_true (p : ℚ → Bool) (x : ℚ) (xs : List ℚ)
    (hx : p x = true) : firstTrue p (x :: xs) = some 0 := by
  simp [firstTrue, hx]

lemma smooth_rate_one (rate : List ℚ) : smooth_rate 1 rate = rate := by
  refine List.ext_getElem (by rw [length_smooth_rate]) (fun n h1 h2 => ?_)
  have key : (smooth_rate 1 rate).getD n 0 = rate.getD n 0 := by
    rw [smooth_rate_getD 1 rate n h2]
    have hsub : n + 1 - 1 = n := by omega
    have hmin : min (n + 1) 1 = 1 := by omega
    rw [window_at, hsub, hmin, List.take_one, List.head?_drop,
      List.getElem?_eq_getElem h2, List.getD_eq_getElem rate 0 h2]
    simp
  rwa [List.getD_eq_getElem _ 0 h1, List.getD_eq_getElem _ 0 h2] at key

lemma mul_length_le_sum (x : ℚ) (b : List ℚ) (h : ∀ y ∈ b, x ≤ y) :
    x * (b.length : ℚ) ≤ b.sum := by
  induction b with
  | nil => simp
  | cons y ys ih =>
    have h1 : x ≤ y := h y (by simp)
    have h2 := ih (fun z hz => h z (by simp [hz]))
    simp only [List.length_cons, List.sum_cons]
    push_cast
    nlinarith

lemma sum_mul_le_of_le (a b : List ℚ)
    (hab : ∀ x ∈ a, ∀ y ∈ b, x ≤ y) :
    a.sum * (b.length : ℚ) ≤ (a.length : ℚ) * b.sum := by
  induction a with
  | nil => simp
  | cons x xs ih =>
    have h1 := mul_length_le_sum x b (hab x (by simp))
    have h2 := ih (fun z hz y hy => hab z (by simp [hz]) y hy)
    simp only [List.sum_cons, List.length_cons]
    push_cast
    nlinarith

lemma mean_append_le (a b : List ℚ) (hb : b ≠ [])
    (hab : ∀ x ∈ a, ∀ y ∈ b, x ≤ y) :
    (a ++ b).sum / (((a ++ b).length : Nat) : ℚ) ≤
      b.sum / ((b.length : Nat) : ℚ) := by
  have hbpos : (0 : ℚ) < (b.length : ℚ) := by
    have := List.length_pos.mpr hb
    exact_mod_cast this
  have habpos : (0 : ℚ) < (((a ++ b).length : Nat) : ℚ) := by
    rw [List.length_append]
    push_cast
    nlinarith [Nat.cast_nonneg (α := ℚ) a.length]
  rw [div_le_div_iff₀ habpos hbpos, List.sum_append, List.length_append]
  have key := sum_mul_le_of_le a b hab
  push_cast
  nlinarith

lemma window_at_split (width1 width2 : Nat) (rate : List ℚ) (i : Nat)
    (h1 : 1 ≤ width1) (h12 : width1 ≤ width2) (hi : i < rate.length) :
    window_at width2 rate i =
      ((rate.drop (i + 1 - width2)).take
          ((i + 1 - width1) - (i + 1 - width2))) ++ window_at width1 rate i := by
  rw [window_at, window_at]
  have hm2 : min (i + 1) width2 =
      ((i + 1 - width1) - (i + 1 - width2)) + min (i + 1) width1 := by omega
  have harg : (i + 1 - width2) + ((i + 1 - width1) - (i + 1 - width2)) =
      i + 1 - width1 := by omega
  rw [hm2, List.take_add, List.drop_drop, harg]

lemma smooth_rate_anti (rate : List ℚ)
    (hmono : List.Pairwise (· ≤ ·) rate)
    (width1 width2 : Nat) (h1 : 1 ≤ width1) (h12 : width1 ≤ width2)
    (i : Nat) (hi : i < rate.length) :
    (smooth_rate width2 rate).getD i 0 ≤ (smooth_rate width1 rate).getD i 0 := by
  rw [smooth_rate_getD _ _ _ hi, smooth_rate_getD _ _ _ hi]
  obtain ⟨a, hsplit⟩ :
      ∃ a, window_at width2 rate i = a ++ window_at width1 rate i :=
    ⟨_, window_at_split width1 width2 rate i h1 h12 hi⟩
  have hl1 := length_window_at width1 rate i hi
  have hl2 := length_window_at width2 rate i hi
  have hb : window_at width1 rate i ≠ [] := by
    have hpos : 0 < (window_at width1 rate i).length := by rw [hl1]; omega
    exact List.ne_nil_of_length_pos hpos
  have hsub : (window_at width2 rate i).Sublist rate :=
    (List.take_sublist _ _).trans (List.drop_sublist _ _)
  have hsorted : List.Pairwise (· ≤ ·) (window_at width2 rate i) :=
    List.Pairwise.sublist hsub hmono
  have hab : ∀ x ∈ a, ∀ y ∈ window_at width1 rate i, x ≤ y := by
    rw [hsplit] at hsorted
    exact (List.pairwise_append.mp hsorted).2.2
  have hmean := mean_append_le a (window_at width1 rate i) hb hab
  rw [← hsplit] at hmean
  rw [hl1, hl2] at hmean
  exact hmean

lemma firstTrue_le_of_pointwise (s1 s2 : List ℚ) (thr : ℚ)
    (hlen : s2.length ≤ s1.length)
    (hdom : ∀ i < s2.length, s2.getD i 0 ≤ s1.getD i 0)
    (k2 : Nat)
    (h : firstTrue (fun x => decide (thr < x)) s2 = some k2) :
    ∃ k1, firstTrue (fun x => decide (thr < x)) s1 = some k1 ∧ k1 ≤ k2 := by
  obtain ⟨hk2len, hk2p, -⟩ := (firstTrue_eq_some_iff _ _ _).mp h
  have hp1 : thr < s1.getD k2 0 :=
    lt_of_lt_of_le (of_decide_eq_true hk2p) (hdom k2 hk2len)
  cases hft : firstTrue (fun x => decide (thr < x)) s1 with
  | none =>
    exfalso
    have hall := (firstTrue_eq_none_iff _ _).mp hft
    have hmem : s1.getD k2 0 ∈ s1 := by
      rw [List.getD_eq_getElem _ _ (lt_of_lt_of_le hk2len hlen)]
      exact List.getElem_mem _
    have hfalse := hall _ hmem
    rw [decide_eq_false_iff_not] at hfalse
    exact hfalse hp1
  | some k1 =>
    refine ⟨k1, rfl, ?_⟩
    by_contra hlt
    obtain ⟨-, -, hall⟩ := (firstTrue_eq_some_iff _ _ _).mp hft
    have hfalse := hall k2 (by omega)
    rw [decide_eq_false_iff_not] at hfalse
    exact hfalse hp1

lemma decision_time_side_eq_zero_of_below (rate : List ℚ) (width : Nat)
    (thr dt : ℚ) (h : ∀ x ∈ smooth_rate width rate, ¬ thr < x) :
    decision_time_side rate width thr dt = 0 := by
  have hnone : firstTrue (fun x => decide (thr < x)) (smooth_rate width rate)
      = none :=
    (firstTrue_eq_none_iff _ _).mpr (fun x hx => by simp [h x hx])
  simp [decision_time_side, argmax_gt, hnone]

lemma decision_time_side_of_firstTrue (rate : List ℚ) (width : Nat)
    (thr dt : ℚ) (k : Nat)
    (h : firstTrue (fun x => decide (thr < x)) (smooth_rate width rate)
        = some k) :
    decision_time_side rate width thr dt = (k : ℚ) * dt := by
  simp [decision_time_side, argmax_gt, h]

lemma crosses_of_decision_time_ne_zero (rate : List ℚ) (width : Nat)
    (thr dt : ℚ) (h : decision_time_side rate width thr dt ≠ 0) :
    crosses width thr rate := by
  cases hft : firstTrue (fun x => decide (thr < x)) (smooth_rate width rate) with
  | none =>
    exfalso
    exact h (by simp [decision_time_side, argmax_gt, hft])
  | some k =>
    obtain ⟨hlen, hp, -⟩ := (firstTrue_eq_some_iff _ _ _).mp hft
    refine ⟨(smooth_rate width rate).getD k 0, ?_, of_decide_eq_true hp⟩
    rw [List.getD_eq_getElem _ _ hlen]
    exact List.getElem_mem _

/-- C1: for every rate-series pair, window width, threshold and sampling
step dt, if a side's smoothed series first exceeds the threshold at
sample index k (that smoothed sample is strictly above the threshold and
no earlier one is), then get_decision_time returns the timestamp k * dt
for that side, per side and in time order. -/
theorem first_crossing_reported_at_k_times_dt
    (rate_A rate_B : List ℚ) (width : Nat) (thr dt : ℚ) (k : Nat) :
    (k < (smooth_rate width rate_A).length →
      thr < (smooth_rate width rate_A).getD k 0 →
      (∀ j < k, ¬ thr < (smooth_rate width rate_A).getD j 0) →
      (get_decision_time rate_A rate_B width thr dt).1 = (k : ℚ) * dt) ∧
    (k < (smooth_rate width rate_B).length →
      thr < (smooth_rate width rate_B).getD k 0 →
      (∀ j < k, ¬ thr < (smooth_rate width rate_B).getD j 0) →
      (get_decision_time rate_A rate_B width thr dt).2 = (k : ℚ) * dt) := by
  refine ⟨fun hlen hk hbefore => ?_, fun hlen hk hbefore => ?_⟩
  · have hft : firstTrue (fun x => decide (thr < x)) (smooth_rate width rate_A)
        = some k :=
      (firstTrue_eq_some_iff _ _ _).mpr
        ⟨hlen, by simpa using hk, fun j hj => by simpa using hbefore j hj⟩
    exact decision_time_side_of_firstTrue _ _ _ _ _ hft
  · have hft : firstTrue (fun x => decide (thr < x)) (smooth_rate width rate_B)
        = some k :=
      (firstTrue_eq_some_iff _ _ _).mpr
        ⟨hlen, by simpa using hk, fun j hj => by simpa using hbefore j hj⟩
    exact decision_time_side_of_firstTrue _ _ _ _ _ hft

/-- Witness for C1: the left series [0, 0, 60] with window 1, threshold
45 and dt = 2 first exceeds the threshold at sample 2 and the detector
reports time 2 * 2 for the left side. -/
theorem first_crossing_reported_at_k_times_dt_witness :
    (get_decision_time [0, 0, 60] [0] 1 45 2).1 = ((2 : Nat) : ℚ) * 2 :=
  (first_crossing_reported_at_k_times_dt [0, 0, 60] [0] 1 45 2 2).1
    (by decide) (by decide) (by decide)

/-- C2: on the concrete input where the left series is 0 Hz for samples
0 to 49 and 60 Hz from sample 50 onward, the right series is 0 Hz
throughout, dt = 1 ms, threshold = 45 Hz and window = 1 sample,
get_decision_time returns (50 ms, 0 ms). -/
theorem concrete_step_input_yields_50ms :
    get_decision_time (List.replicate 50 0 ++ List.replicate 10 60)
      (List.replicate 60 0) 1 45 1 = (50, 0) := by
  decide

/-- C3: for every rate series whose smoothed values stay strictly below
the threshold for its entire length, get_decision_time returns zero for
that side. -/
theorem below_threshold_yields_zero
    (rate_A rate_B : List ℚ) (width : Nat) (thr dt : ℚ) :
    ((∀ x ∈ smooth_rate width rate_A, x < thr) →
      (get_decision_time rate_A rate_B width thr dt).1 = 0) ∧
    ((∀ x ∈ smooth_rate width rate_B, x < thr) →
      (get_decision_time rate_A rate_B width thr dt).2 = 0) := by
  refine ⟨fun h => ?_, fun h => ?_⟩
  · exact decision_time_side_eq_zero_of_below _ _ _ _
      (fun x hx => lt_asymm (h x hx))
  · exact decision_time_side_eq_zero_of_below _ _ _ _
      (fun x hx => lt_asymm (h x hx))

/-- Witness for C3: two series constant at 10 Hz with threshold 45 Hz
yield (0 ms, 0 ms). -/
theorem below_threshold_yields_zero_witness :
    get_decision_time (List.replicate 50 10) (List.replicate 50 10) 1 45 1
      = (0, 0) := by
  have h := below_threshold_yields_zero
    (List.replicate 50 10) (List.replicate 50 10) 1 45 1
  exact Prod.ext_iff.mpr ⟨h.1 (by decide), h.2 (by decide)⟩

/-- C4: for every input on which not both smoothed series cross the
threshold (the valid parameterizations), the returned pair never has
both components non-zero: a doubly non-zero (ambiguous) result can only
arise when both sides cross. -/
theorem valid_inputs_not_ambiguous
    (rate_A rate_B : List ℚ) (width : Nat) (thr dt : ℚ)
    (h : ¬ (crosses width thr rate_A ∧ crosses width thr rate_B)) :
    ¬ ((get_decision_time rate_A rate_B width thr dt).1 ≠ 0 ∧
       (get_decision_time rate_A rate_B width thr dt).2 ≠ 0) := by
  rintro ⟨h1, h2⟩
  exact h ⟨crosses_of_decision_time_ne_zero _ _ _ dt h1,
           crosses_of_decision_time_ne_zero _ _ _ dt h2⟩

/-- Witness for C4: with both series at 0 Hz and threshold 45 Hz neither
side crosses, and the result indeed does not have both components
non-zero. -/
theorem valid_inputs_not_ambiguous_witness :
    ¬ ((get_decision_time [0, 0] [0, 0] 1 45 1).1 ≠ 0 ∧
       (get_decision_time [0, 0] [0, 0] 1 45 1).2 ≠ 0) :=
  valid_inputs_not_ambiguous [0, 0] [0, 0] 1 45 1 (by decide)

/-- Counterexample for C5: on mismatched series lengths (3 vs 5) the
detector does not signal any invalid-argument condition: it returns the
ordinary per-side result (1, 0), each side computed at its own length. -/
theorem mismatched_lengths_return_value :
    get_decision_time [0, 50, 50] [0, 0, 0, 0, 0] 1 45 1 = (1, 0) := by
  decide

/-- C5 amended: the detector performs no input validation: each
component of the result is computed from its own series alone (the left
component does not depend on the right series at all), so mismatched
lengths, negative thresholds or non-positive window widths are processed
by the same per-side computation instead of raising an error. -/
theorem no_validation_per_side
    (rate_A rate_B rate_B2 : List ℚ) (width : Nat) (thr dt : ℚ) :
    get_decision_time rate_A rate_B width thr dt =
      (decision_time_side rate_A width thr dt,
       decision_time_side rate_B width thr dt) ∧
    (get_decision_time rate_A rate_B width thr dt).1 =
      (get_decision_time rate_A rate_B2 width thr dt).1 :=
  ⟨rfl, rfl⟩

/-- Counterexample for C6: both series [50, 50] cross the 45 Hz
threshold (already at sample 0), yet the detector returns (0, 0), both
components zero, not both non-zero. -/
theorem both_crossing_at_sample_zero_reports_zero :
    crosses 1 45 [50, 50] ∧ crosses 1 45 [50, 50] ∧
      get_decision_time [50, 50] [50, 50] 1 45 1 = (0, 0) := by
  decide

/-- C6 amended: when both smoothed series cross the threshold, the
detector resolves nothing and raises nothing: it returns each side's
first-crossing index scaled by dt, and both reported times are non-zero
whenever each side's first crossing is after sample 0 and dt is
positive. -/
theorem both_crossings_reported_when_positive
    (rate_A rate_B : List ℚ) (width : Nat) (thr dt : ℚ) (kA kB : Nat)
    (hA : firstTrue (fun x => decide (thr < x)) (smooth_rate width rate_A)
        = some kA)
    (hB : firstTrue (fun x => decide (thr < x)) (smooth_rate width rate_B)
        = some kB)
    (hApos : 0 < kA) (hBpos : 0 < kB) (hdt : 0 < dt) :
    get_decision_time rate_A rate_B width thr dt =
      ((kA : ℚ) * dt, (kB : ℚ) * dt) ∧
    (kA : ℚ) * dt ≠ 0 ∧ (kB : ℚ) * dt ≠ 0 := by
  have h1 := decision_time_side_of_firstTrue rate_A width thr dt kA hA
  have h2 := decision_time_side_of_firstTrue rate_B width thr dt kB hB
  refine ⟨Prod.ext_iff.mpr ⟨h1, h2⟩, ?_, ?_⟩
  · have hpos : (0 : ℚ) < (kA : ℚ) * dt :=
      mul_pos (by exact_mod_cast hApos) hdt
    exact ne_of_gt hpos
  · have hpos : (0 : ℚ) < (kB : ℚ) * dt :=
      mul_pos (by exact_mod_cast hBpos) hdt
    exact ne_of_gt hpos

/-- Witness for C6 amended: with left series [0, 50] and right series
[0, 0, 50], threshold 45 and dt = 1, both sides cross after sample 0 and
the detector reports the two non-zero times (1, 2). -/
theorem both_crossings_reported_when_positive_witness :
    get_decision_time [0, 50] [0, 0, 50] 1 45 1 =
      (((1 : Nat) : ℚ) * 1, ((2 : Nat) : ℚ) * 1) ∧
    ((1 : Nat) : ℚ) * 1 ≠ 0 ∧ ((2 : Nat) : ℚ) * 1 ≠ 0 :=
  both_crossings_reported_when_positive [0, 50] [0, 0, 50] 1 45 1 1 2
    (by decide) (by decide) (by decide) (by decide) (by decide)

/-- C7: flat-window smoothing with window width equal to one sample is
the identity on every rate series, and hence the detector with width 1
equals thresholding the raw series directly. -/
theorem window_one_smoothing_is_identity
    (s rate_A rate_B : List ℚ) (thr dt : ℚ) :
    smooth_rate 1 s = s ∧
    get_decision_time rate_A rate_B 1 thr dt =
      (((argmax_gt thr rate_A : Nat) : ℚ) * dt,
       ((argmax_gt thr rate_B : Nat) : ℚ) * dt) := by
  refine ⟨smooth_rate_one s, ?_⟩
  unfold get_decision_time decision_time_side
  rw [smooth_rate_one, smooth_rate_one]

/-- C8: for a monotonically non-decreasing rate series and window widths
width1 ≤ width2 (width1 positive), whenever the wider window still has a
crossing (at sample k2), the narrower window has one at some k1 ≤ k2, so
the detected time with the wider window is never earlier: widening the
window only delays or eliminates a crossing. -/
theorem wider_window_never_earlier
    (rate : List ℚ) (thr dt : ℚ) (width1 width2 : Nat) (k2 : Nat)
    (hmono : List.Pairwise (· ≤ ·) rate)
    (h1 : 1 ≤ width1) (h12 : width1 ≤ width2) (hdt : 0 ≤ dt)
    (h : firstTrue (fun x => decide (thr < x)) (smooth_rate width2 rate)
        = some k2) :
    ∃ k1, firstTrue (fun x => decide (thr < x)) (smooth_rate width1 rate)
        = some k1 ∧ k1 ≤ k2 ∧
      decision_time_side rate width1 thr dt ≤
        decision_time_side rate width2 thr dt := by
  have hlen : (smooth_rate width2 rate).length ≤
      (smooth_rate width1 rate).length := by
    rw [length_smooth_rate, length_smooth_rate]
  have hdom : ∀ i < (smooth_rate width2 rate).length,
      (smooth_rate width2 rate).getD i 0 ≤
        (smooth_rate width1 rate).getD i 0 := by
    intro i hi
    rw [length_smooth_rate] at hi
    exact smooth_rate_anti rate hmono width1 width2 h1 h12 i hi
  obtain ⟨k1, hk1, hle⟩ := firstTrue_le_of_pointwise _ _ thr hlen hdom k2 h
  refine ⟨k1, hk1, hle, ?_⟩
  rw [decision_time_side_of_firstTrue _ _ _ _ _ hk1,
      decision_time_side_of_firstTrue _ _ _ _ _ h]
  have hcast : (k1 : ℚ) ≤ (k2 : ℚ) := by exact_mod_cast hle
  exact mul_le_mul_of_nonneg_right hcast hdt

/-- Witness for C8: on the rising series [0, 0, 60, 60] with threshold
45 and dt = 1, the width-2 window crosses at sample 3, and the width-1
decision time is indeed no later than the width-2 decision time. -/
theorem wider_window_never_earlier_witness :
    decision_time_side [0, 0, 60, 60] 1 45 1 ≤
      decision_time_side [0, 0, 60, 60] 2 45 1 := by
  obtain ⟨k1, hk1, hle, hts⟩ :=
    wider_window_never_earlier [0, 0, 60, 60] 45 1 1 2 3
      (by decide) (by decide) (by decide) (by decide) (by decide)
  exact hts

/-- C9: the detector is deterministic: two invocations on equal inputs
(same two series, window width, threshold and sampling step) return
equal results; the embedding is a pure function, so it performs no I/O
and mutates nothing. -/
theorem detector_deterministic
    (a1 b1 : List ℚ) (w1 : Nat) (t1 d1 : ℚ)
    (a2 b2 : List ℚ) (w2 : Nat) (t2 d2 : ℚ)
    (ha : a1 = a2) (hb : b1 = b2) (hw : w1 = w2) (ht : t1 = t2)
    (hd : d1 = d2) :
    get_decision_time a1 b1 w1 t1 d1 = get_decision_time a2 b2 w2 t2 d2 := by
  subst ha hb hw ht hd
  rfl

/-- Witness for C9: two invocations on the same concrete input agree. -/
theorem detector_deterministic_witness :
    get_decision_time [1] [2] 1 3 4 = get_decision_time [1] [2] 1 3 4 :=
  detector_deterministic [1] [2] 1 3 4 [1] [2] 1 3 4 rfl rfl rfl rfl rfl

/-- C10: with the argmax-based detection the notebook prescribes, a
series whose smoothed rate already exceeds the threshold at sample 0
yields the time 0 for that side, which equals the result produced by any
series that never crosses at all: a crossing at the very first sample is
indistinguishable from a no-decision outcome at the interface. -/
theorem crossing_at_sample_zero_indistinguishable
    (rate_A rate_B : List ℚ) (width : Nat) (thr dt : ℚ)
    (hne : rate_A ≠ [])
    (h0 : thr < (smooth_rate width rate_A).getD 0 0) :
    (get_decision_time rate_A rate_B width thr dt).1 = 0 ∧
    ∀ quiet : List ℚ, (∀ x ∈ smooth_rate width quiet, ¬ thr < x) →
      (get_decision_time rate_A rate_B width thr dt).1 =
        (get_decision_time quiet rate_B width thr dt).1 := by
  have hlen : 0 < (smooth_rate width rate_A).length := by
    rw [length_smooth_rate]
    exact List.length_pos.mpr hne
  have hzero : (get_decision_time rate_A rate_B width thr dt).1 = 0 := by
    have hft : firstTrue (fun x => decide (thr < x)) (smooth_rate width rate_A)
        = some 0 := by
      cases hs : smooth_rate width rate_A with
      | nil => rw [hs] at hlen; simp at hlen
      | cons x xs =>
        apply firstTrue_cons_of_true
        have hx : (smooth_rate width rate_A).getD 0 0 = x := by rw [hs]; rfl
        rw [hx] at h0
        simpa using h0
    have hval := decision_time_side_of_firstTrue rate_A width thr dt 0 hft
    simpa using hval
  refine ⟨hzero, fun quiet hq => ?_⟩
  rw [hzero]
  exact (decision_time_side_eq_zero_of_below quiet width thr dt hq).symm

/-- Witness for C10: the series [50, 50] crosses the 45 Hz threshold at
sample 0, the reported left time is 0, and it coincides with the left
time of the never-crossing series [0, 0, 0]. -/
theorem crossing_at_sample_zero_indistinguishable_witness :
    (get_decision_time [50, 50] [0] 1 45 1).1 = 0 ∧
    (get_decision_time [50, 50] [0] 1 45 1).1 =
      (get_decision_time [0, 0, 0] [0] 1 45 1).1 := by
  have h := crossing_at_sample_zero_indistinguishable [50, 50] [0] 1 45 1
    (by decide) (by decide)
  exact ⟨h.1, h.2 [0, 0, 0] (by decide)⟩

end DecisionMaking
